import Mathlib

/-!
Verification of the audio re-segmentation pipeline in `split.py`.

The audio model (a shallow embedding of the pydub `AudioSegment` operations the
script uses): a segment is a list of integer samples, one sample per
millisecond, so `List.length` is the duration in milliseconds exactly as
pydub's `len(seg)` is.  Slicing by milliseconds is list `drop`/`take`,
concatenation is list append, `AudioSegment.silent(d)` is `d` zero samples,
`rms` is the integer square root of the mean of the squared samples (0 on an
empty segment), and `fade_in`/`fade_out` are linear gain ramps applied to the
first/last `fade_ms` samples.  All fades are length preserving and pointwise
attenuating, which is what the script relies on.

The three functions under study, `find_lowest_volume_split`,
`split_by_low_volume` and `merge_chunks`, are translated below directly from
the source.  The `while` loop plus recursion of `split_by_low_volume` is
expressed as a fuel-indexed recursion (`splitGo`) returning `none` when the
fuel runs out; the `for` loop of `merge_chunks` is the structural recursion
`mergeLoop` over the chunk list with the accumulation buffer as an argument.
-/

set_option maxRecDepth 8000

namespace SplitAudio

/-- One audio sample per millisecond. -/
abbrev Seg := List Int

/-- Millisecond slicing `ch[i:j]` of pydub segments. -/
def slice (ch : Seg) (i j : Nat) : Seg :=
  (ch.drop i).take (j - i)

/-- pydub `seg.rms`: integer square root of the mean square, 0 when empty. -/
def rms (l : Seg) : Nat :=
  if l.length = 0 then 0
  else Nat.sqrt ((l.map fun x => x.natAbs * x.natAbs).sum / l.length)

/-- Linear fade-in gain ramp over the first `fade_ms` samples. -/
def fade_in (ch : Seg) (fade_ms : Nat) : Seg :=
  List.zipWith
    (fun k x => if k < fade_ms then x * ((k : Int) + 1) / (fade_ms : Int) else x)
    (List.range ch.length) ch

/-- Linear fade-out gain ramp over the last `fade_ms` samples. -/
def fade_out (ch : Seg) (fade_ms : Nat) : Seg :=
  List.zipWith
    (fun k x => if k < fade_ms then x * ((k : Int) + 1) / (fade_ms : Int) else x)
    (List.range ch.length).reverse ch

/-- `fade_merge` from split.py lines 128-132: fade the tail of `ch1`, the head
of `ch2`, and concatenate with `gap_ms` of true silence between them. -/
def fade_merge (ch1 ch2 : Seg) (fade_ms gap_ms : Nat) : Seg :=
  fade_out ch1 fade_ms ++ List.replicate gap_ms 0 ++ fade_in ch2 fade_ms

/-- `pad_to_length` from split.py lines 134-138: append trailing silence up to
`target_ms`; never truncates. -/
def pad_to_length (ch : Seg) (target_ms : Nat) : Seg :=
  if ch.length < target_ms then ch ++ List.replicate (target_ms - ch.length) 0
  else ch

/-- One iteration of the scan loop of `find_lowest_volume_split` (split.py
lines 44-49): state is `(best_pos, min_rms)` with `none` standing for the
initial `float('inf')`; update on a strictly smaller window RMS. -/
def scanStep (ch : Seg) (st : Nat × Option Nat) (i : Nat) : Nat × Option Nat :=
  let r := rms (slice ch i (i + 50))
  match st.2 with
  | none => (i + 25, some r)
  | some m => if r < m then (i + 25, some r) else st

/-- `find_lowest_volume_split` from split.py lines 27-51.  The `while i <
end_search` loop with `i += step` visits `List.range' start_search n 50` where
`n` is the number of 50 ms steps fitting before `end_search`. -/
def find_lowest_volume_split (ch : Seg) (search_range_ms : Nat) : Nat :=
  let length := ch.length
  if length ≤ search_range_ms then length / 2
  else
    let mid := length / 2
    let start_search := mid - search_range_ms / 2
    let end_search := min length (mid + search_range_ms / 2)
    let steps := (end_search - start_search + 49) / 50
    ((List.range' start_search steps 50).foldl (scanStep ch) (mid, none)).1

/-- The `while len(remaining) > max_len` loop of `split_by_low_volume`
(split.py lines 62-78), including the recursion on an oversized `left`.  The
recursive call `split_by_low_volume(left)` happens only under the guard
`len(left) > max_len`, where it coincides with this loop, so the loop calls
itself on `left`.  `fuel` bounds the recursion depth; `none` means the source
would not have terminated within that depth. -/
def splitGo (max_len fade_ms search_ms : Nat) : Nat → Seg → Option (List Seg)
  | 0, _ => none
  | fuel + 1, remaining =>
    if remaining.length ≤ max_len then some [remaining]
    else
      let split_pos := find_lowest_volume_split remaining search_ms
      let left := fade_out (remaining.take split_pos) fade_ms
      let right := fade_in (remaining.drop split_pos) fade_ms
      let leftParts :=
        if max_len < left.length then splitGo max_len fade_ms search_ms fuel left
        else some [left]
      match leftParts, splitGo max_len fade_ms search_ms fuel right with
      | some l, some r => some (l ++ r)
      | _, _ => none

/-- `split_by_low_volume` from split.py lines 53-78: a segment no longer than
`max_sec * 1000` is returned unchanged as a singleton (lines 58-60), otherwise
the loop runs. -/
def split_by_low_volume (fuel : Nat) (ch : Seg) (max_sec fade_ms search_ms : Nat) :
    Option (List Seg) :=
  if ch.length ≤ max_sec * 1000 then some [ch]
  else splitGo (max_sec * 1000) fade_ms search_ms fuel ch

/-- The `for ch in chunks` loop of `merge_chunks` (split.py lines 98-126)
together with the final flush, recursing on the chunk list with the
accumulation `buffer` threaded through. -/
def mergeLoop (min_sec max_sec ideal_pad_sec fade_ms gap_ms : Nat) :
    List Seg → Seg → List Seg
  | [], buffer =>
    if 0 < buffer.length then
      [if buffer.length < min_sec * 1000 then
         pad_to_length buffer (ideal_pad_sec * 1000)
       else buffer]
    else []
  | ch :: rest, buffer =>
    if buffer.length = 0 then
      mergeLoop min_sec max_sec ideal_pad_sec fade_ms gap_ms rest ch
    else if buffer.length < min_sec * 1000 then
      if buffer.length + ch.length + gap_ms ≤ max_sec * 1000 then
        mergeLoop min_sec max_sec ideal_pad_sec fade_ms gap_ms rest
          (fade_merge buffer ch fade_ms gap_ms)
      else
        (if buffer.length < min_sec * 1000 then
           pad_to_length buffer (ideal_pad_sec * 1000)
         else buffer) ::
          mergeLoop min_sec max_sec ideal_pad_sec fade_ms gap_ms rest ch
    else
      if buffer.length + ch.length + gap_ms ≤ max_sec * 1000 then
        mergeLoop min_sec max_sec ideal_pad_sec fade_ms gap_ms rest
          (fade_merge buffer ch fade_ms gap_ms)
      else
        buffer :: mergeLoop min_sec max_sec ideal_pad_sec fade_ms gap_ms rest ch

/-- `merge_chunks` from split.py lines 83-126, starting from the empty buffer
`AudioSegment.empty()`. -/
def merge_chunks (chunks : List Seg)
    (min_sec max_sec ideal_pad_sec fade_ms gap_ms : Nat) : List Seg :=
  mergeLoop min_sec max_sec ideal_pad_sec fade_ms gap_ms chunks []

/-! ### Spec-side definitions -/

/-- Modelled from the spec: the list of step-window start positions the scan
of `find_lowest_volume_split` visits, "a search window of `search_range_ms`
centered on the segment's temporal midpoint (clamped to buffer bounds)",
walked "in fixed steps (default 50 ms)". -/
def scanPositions (n search_range_ms : Nat) : List Nat :=
  let mid := n / 2
  let start_search := mid - search_range_ms / 2
  let end_search := min n (mid + search_range_ms / 2)
  List.range' start_search ((end_search - start_search + 49) / 50) 50

/-- Modelled from the spec: "the step window with minimum RMS (ties resolved
by first occurrence in scan order, i.e., earliest-in-time minimum wins)" — the
earliest position attaining the minimum of `f` over a list. -/
def earliestArgmin (f : Nat → Nat) : List Nat → Option Nat
  | [] => none
  | p :: ps =>
    match earliestArgmin f ps with
    | none => some p
    | some q => if f p ≤ f q then some p else some q

/-- The window RMS evaluated by the scan at a given start position. -/
def windowRms (ch : Seg) (p : Nat) : Nat := rms (slice ch p (p + 50))

/-- `split_by_low_volume` terminates on the given input, in the fuel model:
some recursion-depth bound suffices. -/
def splitTerminates (ch : Seg) (max_sec fade_ms search_ms : Nat) : Prop :=
  ∃ fuel, (split_by_low_volume fuel ch max_sec fade_ms search_ms).isSome = true

/-- `out` has the same duration as `inp` and each sample is an attenuated
version of the sample at the same position (what a stack of fades does). -/
def AttenuatedOf (out inp : Seg) : Prop :=
  out.length = inp.length ∧
    ∀ i (h1 : i < out.length) (h2 : i < inp.length),
      (out.get ⟨i, h1⟩).natAbs ≤ (inp.get ⟨i, h2⟩).natAbs

/-- The pieces are consecutive contiguous (faded) slices of `ch`, in
left-to-right order, jointly covering all of `ch`. -/
def FadedPartitionOf : List Seg → Seg → Prop
  | [], ch => ch = []
  | p :: ps, ch =>
    AttenuatedOf p (ch.take p.length) ∧ FadedPartitionOf ps (ch.drop p.length)

/-- `BlocksOf runs segs`: the runs are disjoint contiguous blocks of
consecutive elements of `segs`, appearing in the same order as in `segs`, and
every element of `segs` outside the blocks has zero length. -/
inductive BlocksOf : List (List Seg) → List Seg → Prop where
  | nil : BlocksOf [] []
  | drop0 (s : Seg) (rs : List (List Seg)) (gs : List Seg) :
      s.length = 0 → BlocksOf rs gs → BlocksOf rs (s :: gs)
  | block (r : List Seg) (rs : List (List Seg)) (gs : List Seg) :
      r ≠ [] → BlocksOf rs gs → BlocksOf (r :: rs) (r ++ gs)

/-- The buffer value `merge_chunks` accumulates over one run of segments:
successive `fade_merge`s onto the first element. -/
def assembleRun (fade_ms gap_ms : Nat) : List Seg → Seg
  | [] => []
  | h :: t => t.foldl (fun b s => fade_merge b s fade_ms gap_ms) h

/-- What `merge_chunks` does to a buffer when flushing it: pad it to the
target iff it is shorter than the minimum. -/
def finalizeChunk (min_sec ideal_pad_sec : Nat) (b : Seg) : Seg :=
  if b.length < min_sec * 1000 then pad_to_length b (ideal_pad_sec * 1000) else b

/-! ### Basic length and attenuation lemmas -/

theorem length_fade_in (ch : Seg) (f : Nat) : (fade_in ch f).length = ch.length := by
  simp [fade_in]

theorem length_fade_out (ch : Seg) (f : Nat) : (fade_out ch f).length = ch.length := by
  simp [fade_out]

theorem length_fade_merge (a b : Seg) (f g : Nat) :
    (fade_merge a b f g).length = a.length + g + b.length := by
  simp [fade_merge, length_fade_in, length_fade_out]
  omega

theorem length_pad_to_length (b : Seg) (t : Nat) :
    (pad_to_length b t).length = max b.length t := by
  unfold pad_to_length
  split <;> simp <;> omega

theorem pad_to_length_of_lt (b : Seg) (t : Nat) (h : b.length < t) :
    (pad_to_length b t).length = t := by
  rw [length_pad_to_length]; omega

/-- The attenuation step of a linear fade. -/
theorem natAbs_scale_le (x : Int) (k f : Nat) (hk : k < f) :
    (x * ((k : Int) + 1) / (f : Int)).natAbs ≤ x.natAbs := by
  have hf0 : 0 < f := by omega
  have hf' : (0 : Int) < (f : Int) := by exact_mod_cast hf0
  have hm : ((k : Int) + 1) ≤ (f : Int) := by exact_mod_cast hk
  have hm0 : (0 : Int) ≤ (k : Int) + 1 := by positivity
  rcases le_or_lt 0 x with hx | hx
  · have h1 : (0 : Int) ≤ x * ((k : Int) + 1) / (f : Int) :=
      Int.ediv_nonneg (by positivity) (le_of_lt hf')
    have h2 : x * ((k : Int) + 1) / (f : Int) ≤ x * (f : Int) / (f : Int) :=
      Int.ediv_le_ediv hf' (by nlinarith)
    rw [Int.mul_ediv_cancel x (by omega)] at h2
    omega
  · have h2 : x * (f : Int) / (f : Int) ≤ x * ((k : Int) + 1) / (f : Int) :=
      Int.ediv_le_ediv hf' (by nlinarith)
    rw [Int.mul_ediv_cancel x (by omega)] at h2
    have h1 : x * ((k : Int) + 1) / (f : Int) ≤ 0 := by
      have : x * ((k : Int) + 1) / (f : Int) ≤ 0 / (f : Int) :=
        Int.ediv_le_ediv hf' (by nlinarith)
      simpa using this
    omega

theorem attenuatedOf_refl (s : Seg) : AttenuatedOf s s :=
  ⟨rfl, fun _ _ _ => le_refl _⟩

theorem attenuatedOf_trans {a b c : Seg} (h1 : AttenuatedOf a b) (h2 : AttenuatedOf b c) :
    AttenuatedOf a c := by
  obtain ⟨l1, p1⟩ := h1
  obtain ⟨l2, p2⟩ := h2
  refine ⟨l1.trans l2, fun i hi hc => ?_⟩
  have hb : i < b.length := by omega
  exact (p1 i hi hb).trans (p2 i hb hc)

theorem attenuatedOf_fade_in (ch : Seg) (f : Nat) : AttenuatedOf (fade_in ch f) ch := by
  refine ⟨length_fade_in ch f, fun i h1 h2 => ?_⟩
  simp only [List.get_eq_getElem, fade_in, List.getElem_zipWith, List.getElem_range]
  split
  · exact natAbs_scale_le _ _ _ (by assumption)
  · exact le_refl _

theorem attenuatedOf_fade_out (ch : Seg) (f : Nat) : AttenuatedOf (fade_out ch f) ch := by
  refine ⟨length_fade_out ch f, fun i h1 h2 => ?_⟩
  simp only [List.get_eq_getElem, fade_out, List.getElem_zipWith, List.getElem_reverse,
    List.getElem_range]
  split
  · exact natAbs_scale_le _ _ _ (by assumption)
  · exact le_refl _

/-! ### merge_chunks: duration lemmas -/

/-- Every chunk `mergeLoop` ever emits has duration at least `min_sec·1000`,
provided the padding target is at least the minimum. -/
theorem mergeLoop_length_ge (mn mx ideal f g : Nat) (h : mn * 1000 ≤ ideal * 1000) :
    ∀ (segs : List Seg) (buffer c : Seg),
      c ∈ mergeLoop mn mx ideal f g segs buffer → mn * 1000 ≤ c.length := by
  intro segs
  induction segs with
  | nil =>
    intro buffer c hc
    simp only [mergeLoop] at hc
    split at hc
    · simp only [List.mem_singleton] at hc
      subst hc
      split
      · rw [length_pad_to_length]; omega
      · omega
    · simp at hc
  | cons ch rest ih =>
    intro buffer c hc
    simp only [mergeLoop] at hc
    split at hc
    · exact ih ch c hc
    · split at hc
      · split at hc
        · exact ih _ c hc
        · rcases List.mem_cons.1 hc with hc | hc
          · subst hc
            rw [length_pad_to_length]; omega
          · exact ih ch c hc
      · split at hc
        · exact ih _ c hc
        · rcases List.mem_cons.1 hc with hc | hc
          · subst hc; omega
          · exact ih ch c hc

/-- Duration window invariant for `mergeLoop`: with every incoming segment and
the current buffer within `max_sec·1000`, and `min ≤ ideal ≤ max`, every
emitted chunk lies in `[min_sec·1000, max_sec·1000]`. -/
theorem mergeLoop_length_bounds (mn mx ideal f g : Nat)
    (hmi : mn * 1000 ≤ ideal * 1000) (hix : ideal * 1000 ≤ mx * 1000) :
    ∀ (segs : List Seg) (buffer c : Seg),
      (∀ s ∈ segs, s.length ≤ mx * 1000) → buffer.length ≤ mx * 1000 →
      c ∈ mergeLoop mn mx ideal f g segs buffer →
      mn * 1000 ≤ c.length ∧ c.length ≤ mx * 1000 := by
  intro segs
  induction segs with
  | nil =>
    intro buffer c _ hb hc
    simp only [mergeLoop] at hc
    split at hc
    · simp only [List.mem_singleton] at hc
      subst hc
      split
      · rw [length_pad_to_length]; omega
      · omega
    · simp at hc
  | cons ch rest ih =>
    intro buffer c hs hb hc
    have hch : ch.length ≤ mx * 1000 := hs ch (List.mem_cons_self ch rest)
    have hs' : ∀ s ∈ rest, s.length ≤ mx * 1000 := fun s hs0 => hs s (List.mem_cons_of_mem ch hs0)
    simp only [mergeLoop] at hc
    split at hc
    · exact ih ch c hs' hch hc
    · split at hc
      · split at hc
        · refine ih _ c hs' ?_ hc
          rw [length_fade_merge]; omega
        · rcases List.mem_cons.1 hc with hc | hc
          · subst hc
            rw [length_pad_to_length]
            constructor <;> omega
          · exact ih ch c hs' hch hc
      · split at hc
        · refine ih _ c hs' ?_ hc
          rw [length_fade_merge]; omega
        · rcases List.mem_cons.1 hc with hc | hc
          · subst hc; omega
          · exact ih ch c hs' hch hc

/-! ### Claim theorems: merge_chunks durations -/

/-- C1: for every input segment list whose segments all have duration at most
`max_sec·1000` ms, and parameters with `min_sec·1000 ≤ ideal_pad_sec·1000 ≤
max_sec·1000`, every chunk returned by `merge_chunks` has duration in
`[min_sec·1000, max_sec·1000]` milliseconds; in particular no chunk exceeds
`max_sec·1000 + gap_ms`. -/
theorem C1_chunk_duration_bounds (segs : List Seg)
    (min_sec max_sec ideal_pad_sec fade_ms gap_ms : Nat)
    (hseg : ∀ s ∈ segs, s.length ≤ max_sec * 1000)
    (hmi : min_sec * 1000 ≤ ideal_pad_sec * 1000)
    (hix : ideal_pad_sec * 1000 ≤ max_sec * 1000) :
    ∀ c ∈ merge_chunks segs min_sec max_sec ideal_pad_sec fade_ms gap_ms,
      min_sec * 1000 ≤ c.length ∧ c.length ≤ max_sec * 1000 ∧
        c.length ≤ max_sec * 1000 + gap_ms := by
  intro c hc
  have := mergeLoop_length_bounds min_sec max_sec ideal_pad_sec fade_ms gap_ms
    hmi hix segs [] c hseg (by simp) hc
  exact ⟨this.1, this.2, this.2.trans (Nat.le_add_right _ _)⟩

theorem C1_chunk_duration_bounds_witness :
    pad_to_length [(1 : Int)] (4 * 1000) ∈ merge_chunks [[(1 : Int)]] 1 5 4 10 100 ∧
      (1 * 1000 ≤ (pad_to_length [(1 : Int)] (4 * 1000)).length ∧
        (pad_to_length [(1 : Int)] (4 * 1000)).length ≤ 5 * 1000 ∧
        (pad_to_length [(1 : Int)] (4 * 1000)).length ≤ 5 * 1000 + 100) := by
  have hmem : pad_to_length [(1 : Int)] (4 * 1000)
      ∈ merge_chunks [[(1 : Int)]] 1 5 4 10 100 := by
    simp [merge_chunks, mergeLoop]
  exact ⟨hmem, C1_chunk_duration_bounds [[(1 : Int)]] 1 5 4 10 100
    (by intro s hs; simp at hs; subst hs; simp) (by omega) (by omega)
    (pad_to_length [(1 : Int)] (4 * 1000)) hmem⟩

/-- C5 (amended): whenever `min_sec·1000 ≤ ideal_pad_sec·1000` (the defaults
`min_sec = 1`, `ideal_pad_sec = 4` satisfy this), every chunk returned by
`merge_chunks` whose duration is below `min_sec·1000` ms has duration exactly
`ideal_pad_sec·1000` ms; and a single trailing 300 ms segment with
`min_sec = 1`, `ideal_pad_sec = 4` yields one final chunk of exactly 4000 ms. -/
theorem C5_short_chunks_padded (segs : List Seg)
    (min_sec max_sec ideal_pad_sec fade_ms gap_ms : Nat)
    (hmi : min_sec * 1000 ≤ ideal_pad_sec * 1000) :
    (∀ c ∈ merge_chunks segs min_sec max_sec ideal_pad_sec fade_ms gap_ms,
        c.length < min_sec * 1000 → c.length = ideal_pad_sec * 1000) ∧
      (merge_chunks [List.replicate 300 (1 : Int)] 1 5 4 10 100).map List.length
        = [4000] := by
  constructor
  · intro c hc hlt
    exact absurd (mergeLoop_length_ge min_sec max_sec ideal_pad_sec fade_ms gap_ms
      hmi segs [] c hc) (by omega)
  · simp [merge_chunks, mergeLoop, length_pad_to_length]

theorem C5_short_chunks_padded_witness :
    (∀ c ∈ merge_chunks [List.replicate 300 (1 : Int)] 1 5 4 10 100,
        c.length < 1 * 1000 → c.length = 4 * 1000) ∧
      (merge_chunks [List.replicate 300 (1 : Int)] 1 5 4 10 100).map List.length
        = [4000] :=
  C5_short_chunks_padded [List.replicate 300 (1 : Int)] 1 5 4 10 100 (by omega)

/-- C5 as literally stated is false: it claims the padding property for every
parameter setting, but with `ideal_pad_sec = 0` the pad target is 0 ms, the
final 300 ms buffer is returned unpadded, and the resulting chunk has duration
300 < `min_sec·1000` yet not equal to `ideal_pad_sec·1000 = 0`. -/
theorem C5_counterexample :
    ¬ (∀ c ∈ merge_chunks [List.replicate 300 (1 : Int)] 1 5 0 10 100,
        c.length < 1 * 1000 → c.length = 0 * 1000) := by
  intro h
  have hm : List.replicate 300 (1 : Int)
      ∈ merge_chunks [List.replicate 300 (1 : Int)] 1 5 0 10 100 := by
    simp [merge_chunks, mergeLoop, pad_to_length]
  have := h _ hm (by simp)
  simp at this

/-- C9: an empty upstream segment list yields the empty chunk list, for every
parameter setting, with no error. -/
theorem C9_empty_input (min_sec max_sec ideal_pad_sec fade_ms gap_ms : Nat) :
    merge_chunks [] min_sec max_sec ideal_pad_sec fade_ms gap_ms = [] := rfl

/-- C10: `fade_merge` produces a buffer whose duration is exactly
`duration(ch1) + gap_ms + duration(ch2)`: the fade ramps never change
duration, so the merge guard of `merge_chunks` predicts the merged length. -/
theorem C10_fade_merge_length (ch1 ch2 : Seg) (fade_ms gap_ms : Nat) :
    (fade_merge ch1 ch2 fade_ms gap_ms).length = ch1.length + gap_ms + ch2.length :=
  length_fade_merge ch1 ch2 fade_ms gap_ms

/-- C7: a segment whose duration is at most `max_sec·1000` ms is returned by
`split_by_low_volume` as the one-element sequence containing it completely
unchanged — same samples, no fade applied. -/
theorem C7_short_segment_identity (fuel : Nat) (ch : Seg)
    (max_sec fade_ms search_ms : Nat) (h : ch.length ≤ max_sec * 1000) :
    split_by_low_volume fuel ch max_sec fade_ms search_ms = some [ch] := by
  unfold split_by_low_volume
  rw [if_pos h]

theorem C7_short_segment_identity_witness :
    split_by_low_volume 0 [(1 : Int), 2, 3] 5 10 1000 = some [[(1 : Int), 2, 3]] :=
  C7_short_segment_identity 0 [(1 : Int), 2, 3] 5 10 1000 (by simp)

/-! ### split_by_low_volume: sub-segment durations and termination -/

/-- Every piece the split loop emits is at most `max_len` long: `left` is
appended only when within the bound (otherwise recursed on), and the final
`remaining` only once the loop guard fails. -/
theorem splitGo_mem_le (max_len fade_ms search_ms : Nat) :
    ∀ (fuel : Nat) (ch : Seg) (l : List Seg),
      splitGo max_len fade_ms search_ms fuel ch = some l →
      ∀ x ∈ l, x.length ≤ max_len := by
  intro fuel
  induction fuel with
  | zero => intro ch l h; simp [splitGo] at h
  | succ n ih =>
    intro ch l h x hx
    simp only [splitGo] at h
    split at h
    · obtain rfl : [ch] = l := by simpa using h
      simp only [List.mem_singleton] at hx
      subst hx
      assumption
    · rcases hA : (if max_len <
            (fade_out (ch.take (find_lowest_volume_split ch search_ms)) fade_ms).length then
          splitGo max_len fade_ms search_ms n
            (fade_out (ch.take (find_lowest_volume_split ch search_ms)) fade_ms)
        else some [fade_out (ch.take (find_lowest_volume_split ch search_ms)) fade_ms])
        with _ | l1
      · rw [hA] at h; simp at h
      · rcases hB : splitGo max_len fade_ms search_ms n
            (fade_in (ch.drop (find_lowest_volume_split ch search_ms)) fade_ms)
          with _ | l2
        · rw [hA, hB] at h; simp at h
        · rw [hA, hB] at h
          obtain rfl : l1 ++ l2 = l := by simpa using h
          rcases List.mem_append.1 hx with hx | hx
          · split at hA
            · exact ih _ l1 hA x hx
            · obtain rfl : [fade_out (ch.take (find_lowest_volume_split ch search_ms)) fade_ms]
                  = l1 := by simpa using hA
              simp only [List.mem_singleton] at hx
              subst hx
              omega
          · exact ih _ l2 hB x hx

/-- C2: every element of the sequence returned by `split_by_low_volume` has
duration at most `max_sec·1000` ms, for every segment and parameter setting
(whenever the recursion returns within the given depth). -/
theorem C2_pieces_within_max (fuel : Nat) (ch : Seg)
    (max_sec fade_ms search_ms : Nat) (l : List Seg)
    (h : split_by_low_volume fuel ch max_sec fade_ms search_ms = some l) :
    ∀ x ∈ l, x.length ≤ max_sec * 1000 := by
  unfold split_by_low_volume at h
  split at h
  · obtain rfl : [ch] = l := by simpa using h
    intro x hx
    simp only [List.mem_singleton] at hx
    subst hx
    assumption
  · exact splitGo_mem_le _ _ _ fuel ch l h

theorem C2_pieces_within_max_witness :
    split_by_low_volume 0 [(1 : Int), 2, 3] 1 10 1000 = some [[(1 : Int), 2, 3]] ∧
      ([(1 : Int), 2, 3] : Seg).length ≤ 1 * 1000 :=
  ⟨rfl, C2_pieces_within_max 0 [(1 : Int), 2, 3] 1 10 1000 [[(1 : Int), 2, 3]] rfl
    [(1 : Int), 2, 3] (by simp)⟩

/-- The scan loop's result is either the initial `mid` or 25 past one of the
visited window start positions. -/
theorem scan_foldl_mem (ch : Seg) :
    ∀ (ps : List Nat) (st : Nat × Option Nat),
      (ps.foldl (scanStep ch) st).1 = st.1 ∨
        ∃ p ∈ ps, (ps.foldl (scanStep ch) st).1 = p + 25 := by
  intro ps
  induction ps with
  | nil => intro st; left; rfl
  | cons p ps ih =>
    intro st
    rw [List.foldl_cons]
    rcases ih (scanStep ch st p) with h | ⟨q, hq, h⟩
    · rw [h]
      unfold scanStep
      rcases st with ⟨b, _ | m⟩
      · right; exact ⟨p, List.mem_cons_self p ps, rfl⟩
      · simp only
        split
        · right; exact ⟨p, List.mem_cons_self p ps, rfl⟩
        · left; rfl
    · right; exact ⟨q, List.mem_cons_of_mem p hq, h⟩

/-- With the default 1000 ms search range, the split position of a buffer
longer than the search window lies within 475 ms of the midpoint. -/
theorem find_lowest_bounds (ch : Seg) (h : 1000 < ch.length) :
    ch.length / 2 - 475 ≤ find_lowest_volume_split ch 1000 ∧
      find_lowest_volume_split ch 1000 ≤ ch.length / 2 + 475 := by
  simp only [find_lowest_volume_split]
  rw [if_neg (by omega)]
  have hmin : min ch.length (ch.length / 2 + 1000 / 2) = ch.length / 2 + 1000 / 2 :=
    Nat.min_eq_right (by omega)
  rw [hmin]
  have hsteps : (ch.length / 2 + 1000 / 2 - (ch.length / 2 - 1000 / 2) + 49) / 50 = 20 := by
    omega
  rw [hsteps]
  rcases scan_foldl_mem ch (List.range' (ch.length / 2 - 1000 / 2) 20 50)
      (ch.length / 2, none) with hm | ⟨p, hp, hm⟩
  · rw [hm]; constructor <;> omega
  · rw [hm]
    rw [List.mem_range'] at hp
    obtain ⟨i, hi, rfl⟩ := hp
    constructor <;> omega

/-- With `max_sec ≥ 1` and the default search range, the split loop returns
within `length + 1` recursion steps: each split position is strictly between
0 and the buffer length, so both pieces are strictly shorter. -/
theorem splitGo_isSome (max_sec fade_ms : Nat) (hmx : 1 ≤ max_sec) :
    ∀ (fuel : Nat) (s : Seg), s.length < fuel →
      (splitGo (max_sec * 1000) fade_ms 1000 fuel s).isSome = true := by
  intro fuel
  induction fuel with
  | zero => intro s hs; omega
  | succ n ih =>
    intro s hs
    simp only [splitGo]
    split
    · rfl
    · rename_i hlong
      have hlen : 1000 < s.length := by omega
      have hb := find_lowest_bounds s hlen
      set p := find_lowest_volume_split s 1000 with hp
      have hp1 : 1 ≤ p := by omega
      have hp2 : p < s.length := by omega
      have hleft : (fade_out (s.take p) fade_ms).length = p := by
        rw [length_fade_out, List.length_take]; omega
      have hright : (fade_in (s.drop p) fade_ms).length = s.length - p := by
        rw [length_fade_in, List.length_drop]
      have hA : (if max_sec * 1000 < (fade_out (s.take p) fade_ms).length then
          splitGo (max_sec * 1000) fade_ms 1000 n (fade_out (s.take p) fade_ms)
        else some [fade_out (s.take p) fade_ms]).isSome = true := by
        split
        · exact ih _ (by omega)
        · rfl
      have hB : (splitGo (max_sec * 1000) fade_ms 1000 n
          (fade_in (s.drop p) fade_ms)).isSome = true := ih _ (by omega)
      rcases Option.isSome_iff_exists.1 hA with ⟨l1, h1⟩
      rcases Option.isSome_iff_exists.1 hB with ⟨l2, h2⟩
      rw [h1, h2]
      rfl

/-- C3 (amended): `split_by_low_volume` terminates for every segment and
every `fade_ms` whenever `max_sec ≥ 1` and the search range is the default
1000 ms. -/
theorem C3_termination (ch : Seg) (max_sec fade_ms : Nat) (hmx : 1 ≤ max_sec) :
    splitTerminates ch max_sec fade_ms 1000 := by
  refine ⟨ch.length + 1, ?_⟩
  unfold split_by_low_volume
  split
  · rfl
  · exact splitGo_isSome max_sec fade_ms hmx (ch.length + 1) ch (by omega)

theorem C3_termination_witness : splitTerminates [(5 : Int)] 1 10 1000 :=
  C3_termination [(5 : Int)] 1 10 (by omega)

/-- With `max_sec = 0` the loop never makes progress on a 1 ms buffer: the
split position is `1 // 2 = 0`, so `remaining` never shrinks. -/
theorem splitGo_maxzero_len1 (fade_ms : Nat) :
    ∀ (fuel : Nat) (s : Seg), s.length = 1 →
      splitGo 0 fade_ms 1000 fuel s = none := by
  intro fuel
  induction fuel with
  | zero => intro s _; rfl
  | succ n ih =>
    intro s hs
    simp only [splitGo]
    rw [if_neg (by omega)]
    have hfind : find_lowest_volume_split s 1000 = 0 := by
      unfold find_lowest_volume_split
      rw [if_pos (by omega), hs]
    rw [hfind]
    have hleft : (fade_out (s.take 0) fade_ms) = [] := by
      simp [fade_out]
    rw [hleft]
    have hright : splitGo 0 fade_ms 1000 n (fade_in (s.drop 0) fade_ms) = none := by
      apply ih
      rw [length_fade_in, List.length_drop]
      omega
    simp only [List.length_nil, Nat.lt_irrefl, if_false]
    rw [hright]

/-- C3 as literally stated ("every parameter setting, including every max_sec
value") is false: with `max_sec = 0` and a 1 ms segment the loop runs forever
— no recursion depth suffices. -/
theorem C3_counterexample : ¬ splitTerminates [(0 : Int)] 0 10 1000 := by
  rintro ⟨fuel, h⟩
  unfold split_by_low_volume at h
  rw [if_neg (by simp)] at h
  rw [splitGo_maxzero_len1 10 fuel [(0 : Int)] (by simp)] at h
  simp at h

/-! ### find_lowest_volume_split: the scan computes the earliest RMS argmin -/

theorem earliestArgmin_eq_none (f : Nat → Nat) :
    ∀ l : List Nat, earliestArgmin f l = none ↔ l = [] := by
  intro l
  cases l with
  | nil => simp [earliestArgmin]
  | cons p ps =>
    simp only [earliestArgmin]
    constructor
    · intro h
      rcases h' : earliestArgmin f ps with _ | q
      · rw [h'] at h; simp at h
      · rw [h'] at h
        simp only at h
        split at h <;> simp at h
    · intro h; simp at h

theorem earliestArgmin_mem (f : Nat → Nat) :
    ∀ (l : List Nat) (q : Nat), earliestArgmin f l = some q → q ∈ l := by
  intro l
  induction l with
  | nil => intro q h; simp [earliestArgmin] at h
  | cons p ps ih =>
    intro q h
    simp only [earliestArgmin] at h
    rcases h' : earliestArgmin f ps with _ | q'
    · rw [h'] at h
      simp only [Option.some.injEq] at h
      subst h
      exact List.mem_cons_self p ps
    · rw [h'] at h
      simp only at h
      split at h <;> simp only [Option.some.injEq] at h <;> subst h
      · exact List.mem_cons_self p ps
      · exact List.mem_cons_of_mem p (ih q' h')

theorem earliestArgmin_min (f : Nat → Nat) :
    ∀ (l : List Nat) (q : Nat), earliestArgmin f l = some q →
      ∀ p ∈ l, f q ≤ f p := by
  intro l
  induction l with
  | nil => intro q h; simp [earliestArgmin] at h
  | cons p ps ih =>
    intro q h x hx
    simp only [earliestArgmin] at h
    rcases h' : earliestArgmin f ps with _ | q'
    · have hps : ps = [] := (earliestArgmin_eq_none f ps).1 h'
      subst hps
      rw [h'] at h
      simp only [Option.some.injEq] at h
      subst h
      simp only [List.mem_singleton] at hx
      subst hx
      exact le_refl _
    · rw [h'] at h
      simp only at h
      rcases List.mem_cons.1 hx with hx | hx
      · subst hx
        split at h <;> simp only [Option.some.injEq] at h <;> subst h
        · exact le_refl _
        · omega
      · split at h <;> simp only [Option.some.injEq] at h <;> subst h
        · exact le_trans (by assumption) (ih q' h' x hx)
        · exact ih q' h' x hx

/-- Running the scan fold from a finite current minimum `m`: the state changes
exactly when some later window strictly beats `m`, and then ends at the
earliest argmin of the remaining positions. -/
theorem scan_foldl_some (ch : Seg) :
    ∀ (ps : List Nat) (b m : Nat),
      ps.foldl (scanStep ch) (b, some m) =
        (earliestArgmin (windowRms ch) ps).elim (b, some m)
          (fun q =>
            if windowRms ch q < m then (q + 25, some (windowRms ch q))
            else (b, some m)) := by
  intro ps
  induction ps with
  | nil => intro b m; rfl
  | cons x xs ih =>
    intro b m
    rw [List.foldl_cons]
    have hstep : scanStep ch (b, some m) x =
        if windowRms ch x < m then (x + 25, some (windowRms ch x)) else (b, some m) := rfl
    rw [hstep]
    rcases h' : earliestArgmin (windowRms ch) xs with _ | q'
    · have hxs : xs = [] := (earliestArgmin_eq_none _ xs).1 h'
      subst hxs
      simp only [earliestArgmin, List.foldl_nil, Option.elim_none, Option.elim_some]
    · simp only [earliestArgmin, h']
      by_cases hxm : windowRms ch x < m
      · rw [if_pos hxm, ih, h']
        simp only [Option.elim_some]
        by_cases hq : windowRms ch x ≤ windowRms ch q'
        · rw [if_pos hq]
          simp only [Option.elim_some]
          rw [if_neg (by omega), if_pos hxm]
        · rw [if_neg hq]
          simp only [Option.elim_some]
          rw [if_pos (by omega), if_pos (by omega)]
      · rw [if_neg hxm, ih, h']
        simp only [Option.elim_some]
        by_cases hq : windowRms ch x ≤ windowRms ch q'
        · rw [if_pos hq]
          simp only [Option.elim_some]
          rw [if_neg (by omega), if_neg hxm]
        · rw [if_neg hq]
          simp only [Option.elim_some]

/-- Running the scan fold from the initial infinite minimum on a nonempty
position list lands exactly on the earliest argmin. -/
theorem scan_foldl_cons_eq (ch : Seg) (ps : List Nat) (p d : Nat) :
    ∃ q, earliestArgmin (windowRms ch) (p :: ps) = some q ∧
      (p :: ps).foldl (scanStep ch) (d, none) = (q + 25, some (windowRms ch q)) := by
  rw [List.foldl_cons]
  have hstep : scanStep ch (d, none) p = (p + 25, some (windowRms ch p)) := rfl
  rw [hstep, scan_foldl_some]
  rcases h' : earliestArgmin (windowRms ch) ps with _ | q'
  · refine ⟨p, by simp [earliestArgmin, h'], ?_⟩
    simp only [Option.elim_none]
  · simp only [earliestArgmin, h', Option.elim_some]
    by_cases hq : windowRms ch p ≤ windowRms ch q'
    · exact ⟨p, by rw [if_pos hq], by rw [if_neg (by omega)]⟩
    · exact ⟨q', by rw [if_neg hq], by rw [if_pos (by omega)]⟩

/-- C6: a buffer strictly shorter than the search window is cut at the exact
midpoint with no amplitude search; a longer buffer is cut 25 ms into the
50 ms step window of minimum RMS, earliest such window winning ties.  (For
the scan half, the search range must make the scan window nonempty, which
`2 ≤ search_range_ms` — amply satisfied by the default 1000 — guarantees.) -/
theorem C6_cut_point_spec (ch : Seg) (search_range_ms : Nat) :
    (ch.length < search_range_ms →
      find_lowest_volume_split ch search_range_ms = ch.length / 2) ∧
    (search_range_ms < ch.length → 2 ≤ search_range_ms →
      ∃ q, earliestArgmin (windowRms ch) (scanPositions ch.length search_range_ms) = some q ∧
        q ∈ scanPositions ch.length search_range_ms ∧
        (∀ p ∈ scanPositions ch.length search_range_ms,
          windowRms ch q ≤ windowRms ch p) ∧
        find_lowest_volume_split ch search_range_ms = q + 25) := by
  constructor
  · intro h
    unfold find_lowest_volume_split
    rw [if_pos (by omega)]
  · intro hlong hs
    have hpos : ∃ k, (min ch.length (ch.length / 2 + search_range_ms / 2) -
        (ch.length / 2 - search_range_ms / 2) + 49) / 50 = k + 1 := by
      have hmin : min ch.length (ch.length / 2 + search_range_ms / 2) =
          ch.length / 2 + search_range_ms / 2 := Nat.min_eq_right (by omega)
      rw [hmin]
      refine ⟨(ch.length / 2 + search_range_ms / 2 -
        (ch.length / 2 - search_range_ms / 2) + 49) / 50 - 1, by omega⟩
    obtain ⟨k, hk⟩ := hpos
    have hscan : scanPositions ch.length search_range_ms =
        (ch.length / 2 - search_range_ms / 2) ::
          List.range' (ch.length / 2 - search_range_ms / 2 + 50) k 50 := by
      simp only [scanPositions]
      rw [hk]
      rfl
    obtain ⟨q, hEA, hfold⟩ := scan_foldl_cons_eq ch
      (List.range' (ch.length / 2 - search_range_ms / 2 + 50) k 50)
      (ch.length / 2 - search_range_ms / 2) (ch.length / 2)
    rw [← hscan] at hEA hfold
    refine ⟨q, hEA, earliestArgmin_mem _ _ q hEA, earliestArgmin_min _ _ q hEA, ?_⟩
    simp only [find_lowest_volume_split]
    rw [if_neg (by omega)]
    have : List.range' (ch.length / 2 - search_range_ms / 2)
        ((min ch.length (ch.length / 2 + search_range_ms / 2) -
          (ch.length / 2 - search_range_ms / 2) + 49) / 50) 50 =
        scanPositions ch.length search_range_ms := rfl
    rw [this, hfold]

theorem C6_cut_point_spec_witness :
    (List.length [(5 : Int), 5, 5] < 1000 →
      find_lowest_volume_split [(5 : Int), 5, 5] 1000 = List.length [(5 : Int), 5, 5] / 2) ∧
    (1000 < List.length [(5 : Int), 5, 5] → 2 ≤ 1000 →
      ∃ q, earliestArgmin (windowRms [(5 : Int), 5, 5])
          (scanPositions (List.length [(5 : Int), 5, 5]) 1000) = some q ∧
        q ∈ scanPositions (List.length [(5 : Int), 5, 5]) 1000 ∧
        (∀ p ∈ scanPositions (List.length [(5 : Int), 5, 5]) 1000,
          windowRms [(5 : Int), 5, 5] q ≤ windowRms [(5 : Int), 5, 5] p) ∧
        find_lowest_volume_split [(5 : Int), 5, 5] 1000 = q + 25) :=
  C6_cut_point_spec [(5 : Int), 5, 5] 1000

/-! ### Order preservation: split pieces are consecutive faded slices -/

theorem attenuatedOf_take {a b : Seg} (h : AttenuatedOf a b) (k : Nat) :
    AttenuatedOf (a.take k) (b.take k) := by
  obtain ⟨hl, hp⟩ := h
  constructor
  · simp [hl]
  · intro i h1 h2
    have h1' : i < a.length := by simp at h1; omega
    have h2' : i < b.length := by simp at h2; omega
    simp only [List.get_eq_getElem, List.getElem_take]
    exact hp i h1' h2'

theorem attenuatedOf_drop {a b : Seg} (h : AttenuatedOf a b) (k : Nat) :
    AttenuatedOf (a.drop k) (b.drop k) := by
  obtain ⟨hl, hp⟩ := h
  constructor
  · simp [hl]
  · intro i h1 h2
    have h1' : k + i < a.length := by simp at h1; omega
    have h2' : k + i < b.length := by simp at h2; omega
    simp only [List.get_eq_getElem, List.getElem_drop]
    exact hp (k + i) h1' h2'

theorem fadedPartitionOf_self (s : Seg) : FadedPartitionOf [s] s := by
  constructor
  · rw [List.take_length]; exact attenuatedOf_refl s
  · rw [List.drop_length]; rfl

theorem fadedPartitionOf_mono :
    ∀ (l : List Seg) (r r' : Seg), FadedPartitionOf l r → AttenuatedOf r r' →
      FadedPartitionOf l r' := by
  intro l
  induction l with
  | nil =>
    intro r r' hp ha
    have : r = [] := hp
    subst this
    have : r'.length = 0 := by
      have := ha.1
      simpa using this.symm
    exact List.length_eq_zero.1 this
  | cons p ps ih =>
    intro r r' hp ha
    obtain ⟨hatt, hrest⟩ := hp
    exact ⟨attenuatedOf_trans hatt (attenuatedOf_take ha p.length),
      ih (r.drop p.length) (r'.drop p.length) hrest (attenuatedOf_drop ha p.length)⟩

theorem fadedPartitionOf_append :
    ∀ (l1 : List Seg) (A : Seg) (l2 : List Seg) (B : Seg),
      FadedPartitionOf l1 A → FadedPartitionOf l2 B →
      FadedPartitionOf (l1 ++ l2) (A ++ B) := by
  intro l1
  induction l1 with
  | nil =>
    intro A l2 B h1 h2
    have : A = [] := h1
    subst this
    simpa using h2
  | cons p l1' ih =>
    intro A l2 B h1 h2
    obtain ⟨hatt, hrest⟩ := h1
    have hpA : p.length ≤ A.length := by
      have := hatt.1
      simp at this
      omega
    refine ⟨?_, ?_⟩
    · rw [List.take_append_of_le_length hpA]
      exact hatt
    · rw [List.drop_append_of_le_length hpA]
      exact ih (A.drop p.length) l2 B hrest h2

/-- The split loop produces consecutive contiguous faded slices of its input,
in left-to-right order, covering the input. -/
theorem splitGo_faded (max_len fade_ms search_ms : Nat) :
    ∀ (fuel : Nat) (ch : Seg) (l : List Seg),
      splitGo max_len fade_ms search_ms fuel ch = some l →
      FadedPartitionOf l ch := by
  intro fuel
  induction fuel with
  | zero => intro ch l h; simp [splitGo] at h
  | succ n ih =>
    intro ch l h
    simp only [splitGo] at h
    split at h
    · obtain rfl : [ch] = l := by simpa using h
      exact fadedPartitionOf_self ch
    · rcases hA : (if max_len <
            (fade_out (ch.take (find_lowest_volume_split ch search_ms)) fade_ms).length then
          splitGo max_len fade_ms search_ms n
            (fade_out (ch.take (find_lowest_volume_split ch search_ms)) fade_ms)
        else some [fade_out (ch.take (find_lowest_volume_split ch search_ms)) fade_ms])
        with _ | l1
      · rw [hA] at h; simp at h
      · rcases hB : splitGo max_len fade_ms search_ms n
            (fade_in (ch.drop (find_lowest_volume_split ch search_ms)) fade_ms)
          with _ | l2
        · rw [hA, hB] at h; simp at h
        · rw [hA, hB] at h
          obtain rfl : l1 ++ l2 = l := by simpa using h
          have hfl1 : FadedPartitionOf l1 (ch.take (find_lowest_volume_split ch search_ms)) := by
            split at hA
            · exact fadedPartitionOf_mono l1 _ _ (ih _ l1 hA) (attenuatedOf_fade_out _ fade_ms)
            · obtain rfl : [fade_out (ch.take (find_lowest_volume_split ch search_ms)) fade_ms]
                  = l1 := by simpa using hA
              exact fadedPartitionOf_mono _ _ _
                (fadedPartitionOf_self _) (attenuatedOf_fade_out _ fade_ms)
          have hfl2 : FadedPartitionOf l2 (ch.drop (find_lowest_volume_split ch search_ms)) :=
            fadedPartitionOf_mono l2 _ _ (ih _ l2 hB) (attenuatedOf_fade_in _ fade_ms)
          have := fadedPartitionOf_append l1 _ l2 _ hfl1 hfl2
          rwa [List.take_append_drop] at this

/-! ### Order preservation: merged chunks come from consecutive runs -/

/-- Single forward pass of `mergeLoop`, characterized: from a nonempty buffer,
the first emitted chunk finishes the current run after absorbing some prefix
`ext` of the incoming segments, and the rest of the output is the block
decomposition of the remaining segments; from an empty buffer the whole
output is the block decomposition. -/
theorem mergeLoop_blocks (mn mx ideal f g : Nat) :
    ∀ segs : List Seg,
      (∀ buffer : Seg, 0 < buffer.length →
        ∃ ext rest runs, segs = ext ++ rest ∧ BlocksOf runs rest ∧
          mergeLoop mn mx ideal f g segs buffer =
            finalizeChunk mn ideal
                (ext.foldl (fun b s => fade_merge b s f g) buffer) ::
              runs.map (fun r => finalizeChunk mn ideal (assembleRun f g r))) ∧
      (∀ buffer : Seg, buffer.length = 0 →
        ∃ runs, BlocksOf runs segs ∧
          mergeLoop mn mx ideal f g segs buffer =
            runs.map (fun r => finalizeChunk mn ideal (assembleRun f g r))) := by
  intro segs
  induction segs with
  | nil =>
    constructor
    · intro buffer hb
      refine ⟨[], [], [], rfl, BlocksOf.nil, ?_⟩
      simp only [mergeLoop]
      rw [if_pos hb]
      rfl
    · intro buffer hb
      refine ⟨[], BlocksOf.nil, ?_⟩
      simp only [mergeLoop]
      rw [if_neg (by omega)]
      rfl
  | cons ch rest ih =>
    obtain ⟨ihPos, ihEmp⟩ := ih
    have hstart : ∀ ch' : Seg, ∃ runs, BlocksOf runs (ch' :: rest) ∧
        mergeLoop mn mx ideal f g rest ch' =
          runs.map (fun r => finalizeChunk mn ideal (assembleRun f g r)) := by
      intro ch'
      by_cases hc : ch'.length = 0
      · obtain ⟨runs, hb, he⟩ := ihEmp ch' hc
        exact ⟨runs, BlocksOf.drop0 ch' runs rest hc hb, he⟩
      · obtain ⟨ext, rest', runs', hsplit, hb, he⟩ := ihPos ch' (by omega)
        refine ⟨(ch' :: ext) :: runs', ?_, ?_⟩
        · have heq : ch' :: rest = (ch' :: ext) ++ rest' := by rw [hsplit]; rfl
          rw [heq]
          exact BlocksOf.block _ _ _ (by simp) hb
        · rw [he]
          rfl
    constructor
    · intro buffer hb
      simp only [mergeLoop]
      rw [if_neg (by omega)]
      by_cases hlt : buffer.length < mn * 1000
      · rw [if_pos hlt]
        by_cases hle : buffer.length + ch.length + g ≤ mx * 1000
        · rw [if_pos hle]
          obtain ⟨ext', rest', runs', h1, h2, h3⟩ :=
            ihPos (fade_merge buffer ch f g) (by rw [length_fade_merge]; omega)
          refine ⟨ch :: ext', rest', runs', by rw [h1]; rfl, h2, ?_⟩
          rw [h3]
          rfl
        · rw [if_neg hle]
          obtain ⟨runs, hbl, he⟩ := hstart ch
          refine ⟨[], ch :: rest, runs, rfl, hbl, ?_⟩
          rw [he]
          rfl
      · rw [if_neg hlt]
        by_cases hle : buffer.length + ch.length + g ≤ mx * 1000
        · rw [if_pos hle]
          obtain ⟨ext', rest', runs', h1, h2, h3⟩ :=
            ihPos (fade_merge buffer ch f g) (by rw [length_fade_merge]; omega)
          refine ⟨ch :: ext', rest', runs', by rw [h1]; rfl, h2, ?_⟩
          rw [h3]
          rfl
        · rw [if_neg hle]
          obtain ⟨runs, hbl, he⟩ := hstart ch
          refine ⟨[], ch :: rest, runs, rfl, hbl, ?_⟩
          rw [he]
          simp only [List.foldl_nil]
          unfold finalizeChunk
          rw [if_neg hlt]
    · intro buffer hb
      simp only [mergeLoop]
      rw [if_pos hb]
      exact hstart ch

/-- C8: `split_by_low_volume` returns (faded) contiguous slices of its input
appearing in left-to-right position order and jointly covering it, and each
chunk of `merge_chunks` is assembled from one contiguous run of consecutive
input segments, the runs appearing in input order (segments outside every run
are exactly zero-length ones absorbed at a run boundary). -/
theorem C8_order_preservation :
    (∀ (fuel : Nat) (ch : Seg) (max_sec fade_ms search_ms : Nat) (l : List Seg),
        split_by_low_volume fuel ch max_sec fade_ms search_ms = some l →
        FadedPartitionOf l ch) ∧
    (∀ (segs : List Seg) (min_sec max_sec ideal_pad_sec fade_ms gap_ms : Nat),
        ∃ runs, BlocksOf runs segs ∧
          merge_chunks segs min_sec max_sec ideal_pad_sec fade_ms gap_ms =
            runs.map (fun r => finalizeChunk min_sec ideal_pad_sec
              (assembleRun fade_ms gap_ms r))) := by
  constructor
  · intro fuel ch max_sec fade_ms search_ms l h
    unfold split_by_low_volume at h
    split at h
    · obtain rfl : [ch] = l := by simpa using h
      exact fadedPartitionOf_self ch
    · exact splitGo_faded _ _ _ fuel ch l h
  · intro segs min_sec max_sec ideal_pad_sec fade_ms gap_ms
    exact (mergeLoop_blocks min_sec max_sec ideal_pad_sec fade_ms gap_ms segs).2 [] rfl

theorem C8_order_preservation_witness :
    FadedPartitionOf [[(1 : Int), 2]] [(1 : Int), 2] ∧
      ∃ runs, BlocksOf runs [[(3 : Int)]] ∧
        merge_chunks [[(3 : Int)]] 1 5 4 10 100 =
          runs.map (fun r => finalizeChunk 1 4 (assembleRun 10 100 r)) :=
  ⟨C8_order_preservation.1 1 [(1 : Int), 2] 5 10 1000 [[(1 : Int), 2]] rfl,
    C8_order_preservation.2 [[(3 : Int)]] 1 5 4 10 100⟩

/-! ### The 12000 ms scenario -/

/-- A buffer between 5525 and 6475 ms long is split exactly once by the loop
(with `max_sec = 5` and the default search range): the cut lands within
475 ms of the midpoint, leaving two pieces of at most 3713 and hence at most
5000 ms. -/
theorem splitGo_mid_count (fade_ms : Nat) :
    ∀ (fuel : Nat) (s : Seg) (l : List Seg), 5525 ≤ s.length → s.length ≤ 6475 →
      splitGo (5 * 1000) fade_ms 1000 fuel s = some l → l.length = 2 := by
  intro fuel
  cases fuel with
  | zero => intro s l _ _ h; simp [splitGo] at h
  | succ n =>
    intro s l hlo hhi h
    simp only [splitGo] at h
    rw [if_neg (by omega)] at h
    have hp := find_lowest_bounds s (by omega)
    set p := find_lowest_volume_split s 1000 with hpdef
    have hlf : (fade_out (s.take p) fade_ms).length = p := by
      rw [length_fade_out, List.length_take]
      omega
    rw [if_neg (by omega)] at h
    have hrl : (fade_in (s.drop p) fade_ms).length = s.length - p := by
      rw [length_fade_in, List.length_drop]
    cases n with
    | zero =>
      rw [show splitGo (5 * 1000) fade_ms 1000 0 (fade_in (s.drop p) fade_ms) = none
        from rfl] at h
      simp at h
    | succ m =>
      have hB : splitGo (5 * 1000) fade_ms 1000 (m + 1) (fade_in (s.drop p) fade_ms)
          = some [fade_in (s.drop p) fade_ms] := by
        simp only [splitGo]
        rw [if_pos (by omega)]
      rw [hB] at h
      obtain rfl : [fade_out (s.take p) fade_ms] ++ [fade_in (s.drop p) fade_ms] = l := by
        simpa using h
      rfl

/-- A 12000 ms segment is split into exactly four pieces, each within
5000 ms: the first cut lands in [5525, 6475], so both halves exceed 5000 ms
and each is split exactly once more. -/
theorem split_12000_pieces (fuel fade_ms : Nat) (ch : Seg) (l : List Seg)
    (hlen : ch.length = 12000)
    (h : split_by_low_volume fuel ch 5 fade_ms 1000 = some l) :
    l.length = 4 ∧ ∀ x ∈ l, x.length ≤ 5 * 1000 := by
  unfold split_by_low_volume at h
  rw [if_neg (by omega)] at h
  have hall := splitGo_mem_le (5 * 1000) fade_ms 1000 fuel ch l h
  refine ⟨?_, hall⟩
  cases fuel with
  | zero => simp [splitGo] at h
  | succ n =>
    simp only [splitGo] at h
    rw [if_neg (by omega)] at h
    have hp := find_lowest_bounds ch (by omega)
    set p := find_lowest_volume_split ch 1000 with hpdef
    have hlf : (fade_out (ch.take p) fade_ms).length = p := by
      rw [length_fade_out, List.length_take]
      omega
    rw [if_pos (by omega)] at h
    rcases hA : splitGo (5 * 1000) fade_ms 1000 n (fade_out (ch.take p) fade_ms)
      with _ | l1
    · rw [hA] at h; simp at h
    · rcases hB : splitGo (5 * 1000) fade_ms 1000 n (fade_in (ch.drop p) fade_ms)
        with _ | l2
      · rw [hA, hB] at h; simp at h
      · rw [hA, hB] at h
        obtain rfl : l1 ++ l2 = l := by simpa using h
        have hc1 : l1.length = 2 :=
          splitGo_mid_count fade_ms n _ l1 (by omega) (by omega) hA
        have hc2 : l2.length = 2 := by
          refine splitGo_mid_count fade_ms n _ l2 ?_ ?_ hB <;>
            rw [length_fade_in, List.length_drop] <;> omega
        simp [hc1, hc2]

/-- C4 (amended): for a single segment of duration 12000 ms with `max_sec=5`
and default fade and search range, `split_by_low_volume` returns exactly 4
sub-segments (not 3), each of duration at most 5000 ms. -/
theorem C4_twelve_second_segment (fuel fade_ms : Nat) (ch : Seg) (l : List Seg)
    (hlen : ch.length = 12000)
    (h : split_by_low_volume fuel ch 5 fade_ms 1000 = some l) :
    l.length = 4 ∧ ∀ x ∈ l, x.length ≤ 5 * 1000 :=
  split_12000_pieces fuel fade_ms ch l hlen h

theorem C4_twelve_second_segment_witness :
    ∃ l, split_by_low_volume 12001 (List.replicate 12000 (0 : Int)) 5 10 1000 = some l ∧
      l.length = 4 ∧ ∀ x ∈ l, x.length ≤ 5 * 1000 := by
  have hspl : split_by_low_volume 12001 (List.replicate 12000 (0 : Int)) 5 10 1000 =
      splitGo (5 * 1000) 10 1000 12001 (List.replicate 12000 (0 : Int)) := by
    unfold split_by_low_volume
    rw [if_neg (by rw [List.length_replicate]; omega)]
  have hsome : (splitGo (5 * 1000) 10 1000 12001 (List.replicate 12000 (0 : Int))).isSome
      = true := splitGo_isSome 5 10 (by omega) 12001 _ (by rw [List.length_replicate]; omega)
  obtain ⟨l, hl⟩ := Option.isSome_iff_exists.1 hsome
  exact ⟨l, by rw [hspl]; exact hl,
    C4_twelve_second_segment 12001 10 _ l (List.length_replicate 12000 0)
      (by rw [hspl]; exact hl)⟩

/-- C4 as literally stated is false: the first cut of a 12000 ms buffer lands
within 475 ms of the 6000 ms midpoint, so both halves exceed 5000 ms and the
result has 4 sub-segments, never 3. -/
theorem C4_counterexample :
    ∃ l, split_by_low_volume 12001 (List.replicate 12000 (0 : Int)) 5 10 1000 = some l ∧
      l.length ≠ 3 := by
  have hspl : split_by_low_volume 12001 (List.replicate 12000 (0 : Int)) 5 10 1000 =
      splitGo (5 * 1000) 10 1000 12001 (List.replicate 12000 (0 : Int)) := by
    unfold split_by_low_volume
    rw [if_neg (by rw [List.length_replicate]; omega)]
  have hsome : (splitGo (5 * 1000) 10 1000 12001 (List.replicate 12000 (0 : Int))).isSome
      = true := splitGo_isSome 5 10 (by omega) 12001 _ (by rw [List.length_replicate]; omega)
  obtain ⟨l, hl⟩ := Option.isSome_iff_exists.1 hsome
  have hc := split_12000_pieces 12001 10 _ l (List.length_replicate 12000 0)
    (by rw [hspl]; exact hl)
  exact ⟨l, by rw [hspl]; exact hl, by omega⟩

end SplitAudio
